import Mathlib

/-!
Shallow embedding of the state-update persistence engine of the `photon`
indexer (`src/ingester/persist/mod.rs`), its generated table models
(`src/dao/generated/*.rs`) and the read-side token-account query
(`src/api/method/get_compressed_token_accounts_by_owner.rs`).

Tables are modelled as lists of rows; a batched `INSERT ... ON CONFLICT`
statement is modelled as the sequential, row-by-row application of its
per-row upsert semantics (insert when the unique key is absent; otherwise
either do nothing or update the listed columns, possibly gated by a
comparison evaluated against the stored row). Stateful operations take and
return the database state, paired with an optional error; the returned
state includes exactly the statements whose execution had been issued
before the error was raised (the enclosing transaction and its rollback
are owned by the caller and are outside this model).

Rust machine integers are modelled as `Nat` (unsigned) and `Int` (signed),
with the `u64 as i64` cast made explicit as wrapping conversion.
-/

namespace Photon

/-- Raw bytes (`Vec<u8>` / `[u8; N]`), each entry one byte. -/
abbrev Bytes := List Nat

/-- A Solana public key, as its 32-byte representation (`Pubkey.to_bytes`). -/
abbrev Pubkey := List Nat

/-- The fixed compressed-token-program identifier
`pubkey!("9sixVEthz2kMSKfeApZXHwuboT6DZuT6crAYJTciUCqE")`, written out as
its decoded 32 bytes. -/
def COMPRESSED_TOKEN_PROGRAM : Pubkey :=
  [131, 219, 249, 246, 221, 196, 33, 3, 114, 23, 121, 235, 18, 229, 71, 152,
   39, 87, 169, 208, 143, 101, 43, 128, 245, 59, 22, 134, 182, 231, 116, 33]

/-- Maximum row count per batched write statement (`MAX_SQL_INSERTS`). -/
def MAX_SQL_INSERTS : Nat := 1000

/-- The Rust `u64 as i64` cast: wrap into the signed 64-bit range. -/
def i64ofNat (n : Nat) : Int :=
  if n % 2 ^ 64 < 2 ^ 63 then ((n % 2 ^ 64 : Nat) : Int)
  else ((n % 2 ^ 64 : Nat) : Int) - 2 ^ 64

/-- Errors originating in the ingester (`IngesterError`); only the parser
variant can be raised by the code modelled here. -/
inductive IngesterError where
  | ParserError (msg : String)
  | DatabaseError (msg : String)
deriving DecidableEq, Repr

/-- Token account state enum (`AccountState`). Modelled from the spec:
the enum itself is defined in the upstream `psp_compressed_token` crate,
outside this repository; the spec calls it the "account state enum" with a
frozen state distinguished ("frozen flag"). -/
inductive AccountState where
  | Initialized
  | Frozen
deriving DecidableEq, Repr

/-- `TokenData`: the fixed token-data shape. Modelled from the spec:
the struct is defined in the upstream parser crate, outside this
repository; the spec lists its fields as "(mint, owner, amount, optional
delegate, account state enum, optional native marker, delegated amount)". -/
structure TokenData where
  mint : Pubkey
  owner : Pubkey
  amount : Nat
  delegate : Option Pubkey
  state : AccountState
  is_native : Option Nat
  delegated_amount : Nat
deriving DecidableEq, Repr

/-- The typed payload carried by an account (`CompressedAccountData`).
Modelled from the spec: the wrapper struct lives in the upstream parser
crate; this engine only reads its raw byte payload (`.data`). -/
structure AccountData where
  data : Bytes
deriving DecidableEq, Repr

/-- `CompressedAccount`: owner, optional address, optional payload and
lamport balance. Modelled from the spec: the struct is defined in the
upstream parser crate; the fields are exactly the ones this engine reads
(owner identifier, optional address, optional opaque payload, balance). -/
structure CompressedAccount where
  owner : Pubkey
  address : Option Bytes
  data : Option AccountData
  lamports : Nat
deriving DecidableEq, Repr

/-- `EnrichedAccount`: a typed account plus its tree, optional sequence
number, content hash and slot. Modelled from the spec: the struct is
defined in the parser module, outside the provided sources; its fields are
the ones destructured by the append processor. -/
structure EnrichedAccount where
  account : CompressedAccount
  tree : Pubkey
  seq : Option Nat
  hash : Bytes
  slot : Nat
deriving DecidableEq, Repr

/-- A Merkle path node observation (`PathNode`): node hash and node index. -/
structure PathNode where
  node : Bytes
  index : Nat
deriving DecidableEq, Repr

/-- `EnrichedPathNode`: a path node plus tree, level, sequence number,
slot and tree depth. Modelled from the spec: the struct is defined in the
parser module, outside the provided sources; the spec describes the
sequence number as "a monotonically assigned integer per tree". -/
structure EnrichedPathNode where
  node : PathNode
  slot : Nat
  tree : Bytes
  seq : Int
  level : Nat
  tree_depth : Nat
deriving DecidableEq, Repr

/-- A produced account recognised as a token account
(`EnrichedTokenAccount`). -/
structure EnrichedTokenAccount where
  token_data : TokenData
  hash : Bytes
  account : Option Bytes
  slot_updated : Nat
deriving DecidableEq, Repr

/-- A row of the `utxos` table (account records), fields as set by the
persistence code; columns left unset by an insert take their default
(`none` for nullable columns, empty bytes / zero otherwise). -/
structure UtxoRow where
  hash : Bytes
  account : Option Bytes
  data : Bytes
  owner : Bytes
  lamports : Int
  spent : Bool
  tree : Option Bytes
  slot_updated : Int
  seq : Option Int
deriving DecidableEq, Repr

/-- A row of the `token_owners` table (token-index records), fields as in
the generated model (`token_accounts.rs`) restricted to the columns this
engine reads or writes. -/
structure TokenOwnerRow where
  hash : Bytes
  account : Option Bytes
  mint : Bytes
  owner : Bytes
  amount : Int
  delegate : Option Bytes
  frozen : Bool
  is_native : Option Int
  delegated_amount : Int
  spent : Bool
  slot_updated : Int
deriving DecidableEq, Repr

/-- A row of the `state_trees` table (`state_trees.rs`), keyed by
(tree, node_idx), plus the slot column written by the persistence code. -/
structure StateTreeRow where
  tree : Bytes
  node_idx : Int
  leaf_idx : Option Int
  level : Int
  hash : Bytes
  seq : Int
  slot_updated : Int
deriving DecidableEq, Repr

/-- The database state: the three tables owned by the persistence engine. -/
structure DB where
  utxos : List UtxoRow
  token_owners : List TokenOwnerRow
  state_trees : List StateTreeRow
deriving DecidableEq, Repr

/-- One state-update batch (`StateUpdate`): consumed accounts, produced
accounts and path-node updates. -/
structure StateUpdate where
  in_accounts : List EnrichedAccount
  out_accounts : List EnrichedAccount
  path_nodes : List EnrichedPathNode
deriving DecidableEq, Repr

/-! ### Borsh decoding of `TokenData`

`TokenData::try_from_slice` lives in the upstream crate. Modelled from the
spec: "attempts to decode the payload into a fixed token-data shape (mint,
owner, amount, optional delegate, account state enum, optional native
marker, delegated amount)", using Borsh layout: fixed 32-byte keys,
little-endian `u64`, a one-byte tag for `Option`, a one-byte enum index,
and failure on leftover bytes. -/

/-- Read `n` raw bytes. -/
def readN (n : Nat) (bs : Bytes) : Option (Bytes × Bytes) :=
  if n ≤ bs.length then some (bs.take n, bs.drop n) else none

/-- Little-endian interpretation of a byte list. -/
def leVal (bs : Bytes) : Nat := bs.foldr (fun b acc => b + 256 * acc) 0

/-- Read a little-endian `u64`. -/
def readU64 (bs : Bytes) : Option (Nat × Bytes) :=
  (readN 8 bs).map (fun p => (leVal p.1, p.2))

/-- Read a 32-byte public key. -/
def readPubkey (bs : Bytes) : Option (Pubkey × Bytes) := readN 32 bs

/-- Read a Borsh `Option`: tag byte 0 for `None`, 1 for `Some`. -/
def readOpt (p : Bytes → Option (α × Bytes)) (bs : Bytes) :
    Option (Option α × Bytes) :=
  match bs with
  | 0 :: rest => some (none, rest)
  | 1 :: rest => (p rest).map (fun q => (some q.1, q.2))
  | _ => none

/-- Read the account-state enum: index 0 `Initialized`, 1 `Frozen`. -/
def readState (bs : Bytes) : Option (AccountState × Bytes) :=
  match bs with
  | 0 :: rest => some (AccountState.Initialized, rest)
  | 1 :: rest => some (AccountState.Frozen, rest)
  | _ => none

/-- `TokenData::try_from_slice`: decode all fields in order and require
the slice to be fully consumed. -/
def tokenDataFromSlice (bs : Bytes) : Option TokenData := do
  let (mint, bs) ← readPubkey bs
  let (owner, bs) ← readPubkey bs
  let (amount, bs) ← readU64 bs
  let (delegate, bs) ← readOpt readPubkey bs
  let (state, bs) ← readState bs
  let (isNative, bs) ← readOpt readU64 bs
  let (delegatedAmount, bs) ← readU64 bs
  if bs = [] then
    some { mint := mint, owner := owner, amount := amount,
           delegate := delegate, state := state, is_native := isNative,
           delegated_amount := delegatedAmount }
  else none

/-- `parse_token_data`: `None` when the payload is absent or the owner is
not the compressed token program; otherwise decode, raising `ParserError`
on decode failure. -/
def parse_token_data (account : CompressedAccount) :
    Except IngesterError (Option TokenData) :=
  match account.data with
  | some d =>
    if account.owner = COMPRESSED_TOKEN_PROGRAM then
      match tokenDataFromSlice d.data with
      | some token_data => Except.ok (some token_data)
      | none => Except.error
          (IngesterError.ParserError "Failed to parse token data")
    else Except.ok none
  | none => Except.ok none

/-! ### Row models built by the persistence code -/

/-- The `utxos::ActiveModel` built for a consumed account by
`spend_input_accounts`: spent, payload cleared, owner cleared, balance
zeroed, slot and tree set; `account` and `seq` left unset. -/
def spendUtxoModel (a : EnrichedAccount) : UtxoRow :=
  { hash := a.hash
    account := none
    data := []
    owner := []
    lamports := 0
    spent := true
    tree := some a.tree
    slot_updated := i64ofNat a.slot
    seq := none }

/-- The `utxos::ActiveModel` built for a produced account by
`append_output_accounts`. -/
def outUtxoModel (a : EnrichedAccount) : UtxoRow :=
  { hash := a.hash
    account := a.account.address
    data := (a.account.data.map AccountData.data).getD []
    owner := a.account.owner
    lamports := i64ofNat a.account.lamports
    spent := false
    tree := some a.tree
    slot_updated := i64ofNat a.slot
    seq := a.seq.map i64ofNat }

/-- The `token_owners::ActiveModel` built for a consumed token account by
`spend_input_accounts`: spent, amount zeroed, slot set; all other columns
left unset. -/
def spendTokenModel (a : EnrichedAccount) : TokenOwnerRow :=
  { hash := a.hash
    account := none
    mint := []
    owner := []
    amount := 0
    delegate := none
    frozen := false
    is_native := none
    delegated_amount := 0
    spent := true
    slot_updated := i64ofNat a.slot }

/-- The `token_owners::ActiveModel` built by `persist_token_accounts`. -/
def tokenModel (t : EnrichedTokenAccount) : TokenOwnerRow :=
  { hash := t.hash
    account := t.account
    mint := t.token_data.mint
    owner := t.token_data.owner
    amount := i64ofNat t.token_data.amount
    delegate := t.token_data.delegate
    frozen := decide (t.token_data.state = AccountState.Frozen)
    is_native := t.token_data.is_native.map i64ofNat
    delegated_amount := i64ofNat t.token_data.delegated_amount
    spent := false
    slot_updated := i64ofNat t.slot_updated }

/-- `node_idx_to_leaf_idx`: leaf index of a node index in a tree of the
given height. -/
def node_idx_to_leaf_idx (index : Int) (tree_height : Nat) : Int :=
  index - 2 ^ tree_height

/-- The `state_trees::ActiveModel` built by `persist_path_nodes`: leaf
index populated only at level 0. -/
def nodeModel (n : EnrichedPathNode) : StateTreeRow :=
  { tree := n.tree
    node_idx := (n.node.index : Int)
    leaf_idx :=
      if n.level = 0 then
        some (node_idx_to_leaf_idx (n.node.index : Int) n.tree_depth)
      else none
    level := (n.level : Int)
    hash := n.node.node
    seq := n.seq
    slot_updated := i64ofNat n.slot }

/-! ### Per-row upsert semantics of the batched statements -/

/-- One row of the spend upsert on `utxos`: on hash conflict update the
columns `Hash, Data, Lamports, Spent, SlotUpdated, Tree`; otherwise
insert. -/
def utxoUpsertSpend (table : List UtxoRow) (m : UtxoRow) : List UtxoRow :=
  if table.any (fun r => decide (r.hash = m.hash)) then
    table.map (fun r =>
      if r.hash = m.hash then
        { r with data := m.data, lamports := m.lamports, spent := m.spent,
                 slot_updated := m.slot_updated, tree := m.tree }
      else r)
  else table ++ [m]

/-- One row of the append insert on `utxos`: do nothing on hash conflict. -/
def utxoInsertDoNothing (table : List UtxoRow) (m : UtxoRow) : List UtxoRow :=
  if table.any (fun r => decide (r.hash = m.hash)) then table
  else table ++ [m]

/-- One row of the spend upsert on `token_owners`: on hash conflict update
the columns `Hash, Amount, Spent`; otherwise insert. -/
def tokenUpsertSpend (table : List TokenOwnerRow) (m : TokenOwnerRow) :
    List TokenOwnerRow :=
  if table.any (fun r => decide (r.hash = m.hash)) then
    table.map (fun r =>
      if r.hash = m.hash then
        { r with amount := m.amount, spent := m.spent }
      else r)
  else table ++ [m]

/-- One row of the token insert of `persist_token_accounts`: do nothing on
hash conflict. -/
def tokenInsertDoNothing (table : List TokenOwnerRow) (m : TokenOwnerRow) :
    List TokenOwnerRow :=
  if table.any (fun r => decide (r.hash = m.hash)) then table
  else table ++ [m]

/-- One row of the path-node upsert on `state_trees`: on (tree, node_idx)
conflict update `Hash, Seq, SlotUpdated`, but only when
`excluded.seq > state_trees.seq`; otherwise insert. -/
def stateTreeUpsert (table : List StateTreeRow) (m : StateTreeRow) :
    List StateTreeRow :=
  if table.any (fun r => decide (r.tree = m.tree ∧ r.node_idx = m.node_idx)) then
    table.map (fun r =>
      if r.tree = m.tree ∧ r.node_idx = m.node_idx then
        if m.seq > r.seq then
          { r with hash := m.hash, seq := m.seq, slot_updated := m.slot_updated }
        else r
      else r)
  else table ++ [m]

/-! ### The persistence operations -/

/-- The token-model-building loop of `spend_input_accounts`: for each
consumed account, re-run the token extractor; a parse failure aborts. -/
def buildSpendTokenModels : List EnrichedAccount →
    Except IngesterError (List TokenOwnerRow)
  | [] => Except.ok []
  | a :: rest =>
    match parse_token_data a.account with
    | Except.error e => Except.error e
    | Except.ok none => buildSpendTokenModels rest
    | Except.ok (some _) =>
      (buildSpendTokenModels rest).map (fun ms => spendTokenModel a :: ms)

/-- `spend_input_accounts`: upsert the spent account rows, then derive and
upsert the spent token rows; the token parse runs after the account-row
statement has been issued. -/
def spend_input_accounts (db : DB) (in_accounts : List EnrichedAccount) :
    DB × Option IngesterError :=
  let in_account_models := in_accounts.map spendUtxoModel
  let db1 :=
    if in_account_models.isEmpty then db
    else { db with utxos := List.foldl utxoUpsertSpend db.utxos in_account_models }
  match buildSpendTokenModels in_accounts with
  | Except.error e => (db1, some e)
  | Except.ok token_models =>
    if token_models.isEmpty then (db1, none)
    else ({ db1 with
            token_owners :=
              List.foldl tokenUpsertSpend db1.token_owners token_models },
          none)

/-- `persist_token_accounts`: batched do-nothing-on-conflict insert of
token-index rows. -/
def persist_token_accounts (db : DB)
    (token_accounts : List EnrichedTokenAccount) :
    DB × Option IngesterError :=
  ({ db with
     token_owners :=
       List.foldl tokenInsertDoNothing db.token_owners
         (token_accounts.map tokenModel) },
   none)

/-- The model-building loop of `append_output_accounts`: build the account
rows and collect the token accounts; a parse failure aborts the whole
build before anything is executed. -/
def buildOutModels : List EnrichedAccount →
    Except IngesterError (List UtxoRow × List EnrichedTokenAccount)
  | [] => Except.ok ([], [])
  | a :: rest =>
    match parse_token_data a.account with
    | Except.error e => Except.error e
    | Except.ok od =>
      match buildOutModels rest with
      | Except.error e => Except.error e
      | Except.ok (ms, ts) =>
        Except.ok (outUtxoModel a :: ms,
          match od with
          | some token_data =>
            { token_data := token_data, hash := a.hash,
              account := a.account.address, slot_updated := a.slot } :: ts
          | none => ts)

/-- `append_output_accounts`: build all rows first (token parse included),
then issue the do-nothing-on-conflict account insert and, when token
accounts were found, the token insert. -/
def append_output_accounts (db : DB) (out_accounts : List EnrichedAccount) :
    DB × Option IngesterError :=
  match buildOutModels out_accounts with
  | Except.error e => (db, some e)
  | Except.ok (account_models, token_accounts) =>
    if out_accounts.isEmpty then (db, none)
    else
      let db1 := { db with
                   utxos := List.foldl utxoInsertDoNothing db.utxos
                              account_models }
      if token_accounts.isEmpty then (db1, none)
      else persist_token_accounts db1 token_accounts

/-- `persist_path_nodes`: no-op on an empty list, otherwise the batched
sequence-guarded upsert. -/
def persist_path_nodes (db : DB) (nodes : List EnrichedPathNode) :
    DB × Option IngesterError :=
  if nodes.isEmpty then (db, none)
  else ({ db with
          state_trees :=
            List.foldl stateTreeUpsert db.state_trees (nodes.map nodeModel) },
        none)

/-- Modelled from the spec: `StateUpdate::prune_redundant_updates` is
defined in the parser module, outside the provided sources; "the exact
superseding rule is: same (tree, node index) keeps only the entry with the
highest sequence number". -/
def prunePathNodes (nodes : List EnrichedPathNode) : List EnrichedPathNode :=
  nodes.foldl
    (fun acc n =>
      if acc.any (fun m => decide (m.tree = n.tree ∧ m.node.index = n.node.index)) then
        acc.map (fun m =>
          if m.tree = n.tree ∧ m.node.index = n.node.index then
            if n.seq > m.seq then n else m
          else m)
      else acc ++ [n])
    []

/-- Modelled from the spec: prune a batch so that for each
(tree, node index) only the path-node entry with the highest sequence
number remains. -/
def prune_redundant_updates (su : StateUpdate) : StateUpdate :=
  { su with path_nodes := prunePathNodes su.path_nodes }

/-- `slice::chunks`: split a list into consecutive chunks of at most `n`
elements. -/
def chunksOf (n : Nat) (l : List α) : List (List α) :=
  if h : n = 0 then []
  else if h2 : l.isEmpty then []
  else l.take n :: chunksOf n (l.drop n)
termination_by l.length
decreasing_by
  have hl : 0 < l.length := by
    cases l with
    | nil => simp at h2
    | cons a t => simp
  simp only [List.length_drop]
  omega

/-- Run a chunked operation sequentially, stopping at the first error. -/
def seqRun (f : DB → α → DB × Option IngesterError) :
    DB → List α → DB × Option IngesterError
  | db, [] => (db, none)
  | db, c :: cs =>
    match f db c with
    | (db1, none) => seqRun f db1 cs
    | (db1, some e) => (db1, some e)

/-- `persist_state_update`: prune, then process spends, appends and path
nodes, in that order, each in chunks of at most `MAX_SQL_INSERTS`. -/
def persist_state_update (db : DB) (state_update : StateUpdate) :
    DB × Option IngesterError :=
  let su := prune_redundant_updates state_update
  match seqRun spend_input_accounts db
      (chunksOf MAX_SQL_INSERTS su.in_accounts) with
  | (db1, some e) => (db1, some e)
  | (db1, none) =>
    match seqRun append_output_accounts db1
        (chunksOf MAX_SQL_INSERTS su.out_accounts) with
    | (db2, some e) => (db2, some e)
    | (db2, none) =>
      seqRun persist_path_nodes db2
        (chunksOf MAX_SQL_INSERTS su.path_nodes)

/-- The read-side filter of `get_compressed_token_accounts_by_owner`:
owner must match, and the mint must match when one is requested. -/
def get_compressed_token_accounts_by_owner (db : DB) (owner : Pubkey)
    (mint : Option Pubkey) : List TokenOwnerRow :=
  db.token_owners.filter (fun r =>
    decide (r.owner = owner) &&
      match mint with
      | some m => decide (r.mint = m)
      | none => true)

/-! ### Derived notions used by the statements -/

/-- Look up the row of a (tree, node index) key, as the storage layer's
primary-key lookup on `state_trees`. -/
def findNode (table : List StateTreeRow) (tree : Bytes) (idx : Int) :
    Option StateTreeRow :=
  table.find? (fun r => decide (r.tree = tree ∧ r.node_idx = idx))

/-- Look up the row of a content hash in the `utxos` table. -/
def findUtxo (table : List UtxoRow) (h : Bytes) : Option UtxoRow :=
  table.find? (fun r => decide (r.hash = h))

/-- Look up the row of a content hash in the `token_owners` table. -/
def findToken (table : List TokenOwnerRow) (h : Bytes) : Option TokenOwnerRow :=
  table.find? (fun r => decide (r.hash = h))

/-- The primary-key constraint of `state_trees`: no two rows share a
(tree, node index) key. -/
def uniqueNodeKeys (table : List StateTreeRow) : Prop :=
  table.Pairwise (fun r s => ¬(r.tree = s.tree ∧ r.node_idx = s.node_idx))

/-! ### Concrete demonstration values -/

/-- The all-zero public key, distinct from the token program id. -/
def zeroPk : Pubkey := List.replicate 32 0

/-- An 83-byte all-zero payload, which is a valid Borsh encoding of a
token-data value. -/
def demoTokenBytes : Bytes := List.replicate 83 0

/-- The token-data value encoded by `demoTokenBytes`. -/
def demoTokenData : TokenData :=
  { mint := zeroPk, owner := zeroPk, amount := 0, delegate := none,
    state := AccountState.Initialized, is_native := none,
    delegated_amount := 0 }

/-- An account with no payload. -/
def accNoData : CompressedAccount :=
  { owner := COMPRESSED_TOKEN_PROGRAM, address := none, data := none,
    lamports := 0 }

/-- An account with a decodable token payload but a non-token-program
owner. -/
def accWrongOwner : CompressedAccount :=
  { owner := zeroPk, address := none, data := some { data := demoTokenBytes },
    lamports := 0 }

/-- A token-program account with a decodable token payload. -/
def accGood : CompressedAccount :=
  { owner := COMPRESSED_TOKEN_PROGRAM, address := none,
    data := some { data := demoTokenBytes }, lamports := 0 }

/-- A token-program account with an undecodable payload. -/
def accBad : CompressedAccount :=
  { owner := COMPRESSED_TOKEN_PROGRAM, address := none,
    data := some { data := [5] }, lamports := 0 }

/-! ### C3: token-payload extractor gating -/

/-- C3: `parse_token_data` returns `none` when the payload is absent, and
when the payload is present but the owner is not the compressed token
program — in the latter case whatever the payload decodes to; when the
owner matches, a successful decode yields the token data and a failed
decode yields a `ParserError`. -/
theorem parse_token_data_gating (a : CompressedAccount) :
    (a.data = none → parse_token_data a = Except.ok none) ∧
    (∀ d, a.data = some d → a.owner ≠ COMPRESSED_TOKEN_PROGRAM →
      parse_token_data a = Except.ok none) ∧
    (∀ d, a.data = some d → a.owner = COMPRESSED_TOKEN_PROGRAM →
      (∀ token_data, tokenDataFromSlice d.data = some token_data →
        parse_token_data a = Except.ok (some token_data)) ∧
      (tokenDataFromSlice d.data = none →
        parse_token_data a =
          Except.error (IngesterError.ParserError "Failed to parse token data"))) := by
  refine ⟨fun h => ?_, fun d hd hown => ?_, fun d hd hown => ⟨fun td htd => ?_, fun hfail => ?_⟩⟩
  · simp [parse_token_data, h]
  · simp [parse_token_data, hd, hown]
  · simp [parse_token_data, hd, hown, htd]
  · simp [parse_token_data, hd, hown, hfail]

/-- Witness for C3: concrete accounts exercising all four branches; in
particular `accWrongOwner` carries a payload that does decode, yet yields
"not a token account". -/
theorem parse_token_data_gating_witness :
    parse_token_data accNoData = Except.ok none ∧
    tokenDataFromSlice demoTokenBytes = some demoTokenData ∧
    parse_token_data accWrongOwner = Except.ok none ∧
    parse_token_data accGood = Except.ok (some demoTokenData) ∧
    parse_token_data accBad =
      Except.error (IngesterError.ParserError "Failed to parse token data") := by
  have hdec : tokenDataFromSlice demoTokenBytes = some demoTokenData := by decide
  refine ⟨(parse_token_data_gating accNoData).1 rfl, hdec,
    (parse_token_data_gating accWrongOwner).2.1 _ rfl (by decide),
    ((parse_token_data_gating accGood).2.2 _ rfl rfl).1 _ hdec,
    ((parse_token_data_gating accBad).2.2 _ rfl rfl).2 (by decide)⟩

/-! ### C9: read-side token-account-by-owner query -/

/-- C9: the token-accounts-by-owner query returns exactly the token-index
rows whose owner equals the requested owner and whose mint matches the
requested mint when one is supplied; the spent flag plays no role in the
filter. -/
theorem token_accounts_by_owner_filter (db : DB) (owner : Pubkey)
    (mint : Option Pubkey) (r : TokenOwnerRow) :
    r ∈ get_compressed_token_accounts_by_owner db owner mint ↔
      r ∈ db.token_owners ∧ r.owner = owner ∧
        (∀ m, mint = some m → r.mint = m) := by
  cases mint with
  | none => simp [get_compressed_token_accounts_by_owner, List.mem_filter]
  | some m =>
    simp [get_compressed_token_accounts_by_owner, List.mem_filter, and_assoc]

/-- Witness for C9: a database whose only token row is spent and owned by
the requested owner; the query still returns it. -/
theorem token_accounts_by_owner_filter_witness :
    let spentRow : TokenOwnerRow :=
      { hash := [1], account := none, mint := [2], owner := [3], amount := 0,
        delegate := none, frozen := false, is_native := none,
        delegated_amount := 0, spent := true, slot_updated := 9 }
    let db : DB := { utxos := [], token_owners := [spentRow], state_trees := [] }
    spentRow ∈ get_compressed_token_accounts_by_owner db [3] (some [2]) := by
  intro spentRow db
  exact (token_accounts_by_owner_filter db [3] (some [2]) spentRow).mpr
    ⟨by decide, rfl, fun m hm => by cases hm; rfl⟩

/-! ### C10: append aborts before any write on a parse error -/

/-- The build loop of the append processor fails exactly when some account
of the chunk fails the token parse. -/
theorem buildOutModels_error_of_parse_error (accs : List EnrichedAccount)
    (h : ∃ a ∈ accs, ∃ e, parse_token_data a.account = Except.error e) :
    ∃ e, buildOutModels accs = Except.error e := by
  induction accs with
  | nil => simp at h
  | cons a rest ih =>
    obtain ⟨b, hb, e, he⟩ := h
    rcases List.mem_cons.mp hb with hba | hbr
    · subst hba
      exact ⟨e, by simp [buildOutModels, he]⟩
    · cases hp : parse_token_data a.account with
      | error e' => exact ⟨e', by simp [buildOutModels, hp]⟩
      | ok od =>
        obtain ⟨e'', he''⟩ := ih ⟨b, hbr, e, he⟩
        exact ⟨e'', by simp [buildOutModels, hp, he'']⟩

/-- C10: when some account of a chunk fails the token parse, the append
processor raises the error with no storage statement executed: the
database state it returns is exactly the one it was given. -/
theorem append_error_leaves_db_unchanged (db : DB)
    (accs : List EnrichedAccount)
    (h : ∃ a ∈ accs, ∃ e, parse_token_data a.account = Except.error e) :
    (append_output_accounts db accs).1 = db ∧
      (append_output_accounts db accs).2.isSome := by
  obtain ⟨e, he⟩ := buildOutModels_error_of_parse_error accs h
  simp [append_output_accounts, he]

/-- Witness for C10: a two-account chunk whose second account fails the
parse; the append changes nothing even though the first account was
well-formed. -/
theorem append_error_leaves_db_unchanged_witness :
    let good : EnrichedAccount :=
      { account := accGood, tree := zeroPk, seq := some 1, hash := [7], slot := 5 }
    let bad : EnrichedAccount :=
      { account := accBad, tree := zeroPk, seq := some 2, hash := [8], slot := 5 }
    let db : DB := { utxos := [], token_owners := [], state_trees := [] }
    (append_output_accounts db [good, bad]).1 = db ∧
      (append_output_accounts db [good, bad]).2.isSome := by
  intro good bad db
  exact append_error_leaves_db_unchanged db [good, bad]
    ⟨bad, by simp, IngesterError.ParserError "Failed to parse token data", rfl⟩

/-! ### Generic lemmas about keyed tables

The three tables are keyed lists; the batched statements are folds of
per-row operations that look the row's key up. The lemmas below are stated
once for an abstract key function and instantiated per table. -/

section KeyedTable

variable {α : Type} {κ : Type} [DecidableEq κ] (key : α → κ)

/-- Whether some row of the table carries the given key. -/
def memKey (table : List α) (k : κ) : Bool :=
  table.any (fun r => decide (key r = k))

/-- Insert-with-do-nothing-on-conflict, one row. -/
def insertDN (table : List α) (m : α) : List α :=
  if memKey key table (key m) then table else table ++ [m]

/-- Upsert-with-column-update-on-conflict, one row: `upd r m` is the
stored row `r` with the statement's update columns taken from `m`. -/
def upsertBy (upd : α → α → α) (table : List α) (m : α) : List α :=
  if table.any (fun r => decide (key r = key m)) then
    table.map (fun r => if key r = key m then upd r m else r)
  else table ++ [m]

/-- Primary-key lookup. -/
def findKey (table : List α) (k : κ) : Option α :=
  table.find? (fun r => decide (key r = k))

theorem memKey_append (t1 t2 : List α) (k : κ) :
    memKey key (t1 ++ t2) k = (memKey key t1 k || memKey key t2 k) := by
  simp [memKey]

theorem memKey_insertDN_mono (table : List α) (m : α) (k : κ)
    (h : memKey key table k = true) :
    memKey key (insertDN key table m) k = true := by
  unfold insertDN
  by_cases hc : memKey key table (key m) = true
  · rw [if_pos hc]; exact h
  · rw [if_neg hc, memKey_append, h, Bool.true_or]

theorem memKey_insertDN_self (table : List α) (m : α) :
    memKey key (insertDN key table m) (key m) = true := by
  unfold insertDN
  by_cases hc : memKey key table (key m) = true
  · rw [if_pos hc]; exact hc
  · rw [if_neg hc, memKey_append]
    simp [memKey]

theorem memKey_foldl_mono (ms : List α) (table : List α) (k : κ)
    (h : memKey key table k = true) :
    memKey key (List.foldl (insertDN key) table ms) k = true := by
  induction ms generalizing table with
  | nil => exact h
  | cons m rest ih =>
    exact ih (insertDN key table m) (memKey_insertDN_mono key table m k h)

theorem memKey_foldl_of_mem (ms : List α) (table : List α) (m : α)
    (hm : m ∈ ms) :
    memKey key (List.foldl (insertDN key) table ms) (key m) = true := by
  induction ms generalizing table with
  | nil => cases hm
  | cons m0 rest ih =>
    rcases List.mem_cons.mp hm with h0 | hr
    · subst h0
      exact memKey_foldl_mono key rest (insertDN key table m) (key m)
        (memKey_insertDN_self key table m)
    · exact ih (insertDN key table m0) hr

theorem foldl_insertDN_eq_self (ms : List α) (table : List α)
    (h : ∀ m ∈ ms, memKey key table (key m) = true) :
    List.foldl (insertDN key) table ms = table := by
  induction ms generalizing table with
  | nil => rfl
  | cons m0 rest ih =>
    have h0 : insertDN key table m0 = table := by
      unfold insertDN
      rw [if_pos (h m0 (List.mem_cons_self _ _))]
    simp only [List.foldl_cons, h0]
    exact ih table (fun m hm => h m (List.mem_cons_of_mem _ hm))

/-- Replaying a do-nothing-on-conflict batch insert changes nothing. -/
theorem foldl_insertDN_idem (ms : List α) (table : List α) :
    List.foldl (insertDN key) (List.foldl (insertDN key) table ms) ms
      = List.foldl (insertDN key) table ms :=
  foldl_insertDN_eq_self key ms _
    (fun m hm => memKey_foldl_of_mem key ms table m hm)

/-- A do-nothing-on-conflict batch insert of fresh, pairwise-distinct keys
appends every row. -/
theorem foldl_insertDN_fresh (ms : List α) (table : List α)
    (hnd : (ms.map key).Nodup)
    (hfresh : ∀ m ∈ ms, memKey key table (key m) = false) :
    List.foldl (insertDN key) table ms = table ++ ms := by
  induction ms generalizing table with
  | nil => simp
  | cons m0 rest ih =>
    have hnd' : (∀ x ∈ rest, ¬key x = key m0) ∧ (rest.map key).Nodup := by
      simpa using hnd
    have h0 : insertDN key table m0 = table ++ [m0] := by
      unfold insertDN
      rw [hfresh m0 (List.mem_cons_self _ _)]
      simp
    simp only [List.foldl_cons, h0]
    have hfresh' : ∀ m ∈ rest, memKey key (table ++ [m0]) (key m) = false := by
      intro m hm
      rw [memKey_append]
      have h1 : memKey key table (key m) = false :=
        hfresh m (List.mem_cons_of_mem _ hm)
      have h2 : memKey key [m0] (key m) = false := by
        have hne : key m0 ≠ key m := fun he => hnd'.1 m hm he.symm
        simp [memKey, hne]
      rw [h1, h2]
      rfl
    rw [ih (table ++ [m0]) hnd'.2 hfresh']
    simp

theorem findKey_map_upd (table : List α) (k : κ) (f : α → α)
    (hf : ∀ s, key (f s) = key s) :
    findKey key (table.map (fun s => if key s = k then f s else s)) k
      = (findKey key table k).map f := by
  induction table with
  | nil => rfl
  | cons a t ih =>
    simp only [List.map_cons]
    by_cases ha : key a = k
    · unfold findKey
      rw [if_pos ha, List.find?_cons_of_pos _ (by simp [hf, ha]),
        List.find?_cons_of_pos _ (by simpa using ha)]
      rfl
    · unfold findKey
      rw [if_neg ha, List.find?_cons_of_neg _ (by simpa using ha),
        List.find?_cons_of_neg _ (by simpa using ha)]
      exact ih

theorem findKey_upsertBy_found (upd : α → α → α) (table : List α) (m r : α)
    (hkey : ∀ s, key (upd s m) = key s)
    (h : findKey key table (key m) = some r) :
    findKey key (upsertBy key upd table m) (key m) = some (upd r m) := by
  have h' : List.find? (fun s => decide (key s = key m)) table = some r := h
  have hmem : r ∈ table := List.mem_of_find?_eq_some h'
  have hpred := List.find?_some h'
  have hany : table.any (fun s => decide (key s = key m)) = true :=
    List.any_eq_true.mpr ⟨r, hmem, hpred⟩
  unfold upsertBy
  rw [if_pos hany]
  exact (findKey_map_upd key table (key m) (fun s => upd s m) hkey).trans
    (by rw [h]; rfl)

theorem upsertBy_fresh (upd : α → α → α) (table : List α) (m : α)
    (h : findKey key table (key m) = none) :
    upsertBy key upd table m = table ++ [m] := by
  have h' := List.find?_eq_none.mp h
  have hany : table.any (fun r => decide (key r = key m)) = false := by
    rw [List.any_eq_false]
    intro r hr
    simpa using h' r hr
  simp only [upsertBy, hany, Bool.false_eq_true, if_false]

theorem findKey_append (t1 t2 : List α) (k : κ) :
    findKey key (t1 ++ t2) k = (findKey key t1 k).or (findKey key t2 k) :=
  List.find?_append

/-- Replaying a column-update upsert of a single row changes nothing, as
long as the update preserves the key, is idempotent, and fixes the
incoming row itself. -/
theorem upsertBy_idem (upd : α → α → α) (table : List α) (m : α)
    (hkey : ∀ s, key (upd s m) = key s)
    (hidem : ∀ s, upd (upd s m) m = upd s m)
    (hself : upd m m = m) :
    upsertBy key upd (upsertBy key upd table m) m = upsertBy key upd table m := by
  by_cases hany : table.any (fun r => decide (key r = key m)) = true
  · obtain ⟨r, hrmem, hrpred⟩ := List.any_eq_true.mp hany
    have step1 : upsertBy key upd table m
        = table.map (fun r => if key r = key m then upd r m else r) := by
      unfold upsertBy
      rw [if_pos hany]
    rw [step1]
    have hany2 : (table.map (fun r => if key r = key m then upd r m else r)).any
        (fun r => decide (key r = key m)) = true := by
      refine List.any_eq_true.mpr ⟨if key r = key m then upd r m else r,
        List.mem_map_of_mem _ hrmem, ?_⟩
      have hr : key r = key m := by simpa using hrpred
      rw [if_pos hr]
      simp [hkey, hr]
    unfold upsertBy
    rw [if_pos hany2, List.map_map]
    refine List.map_congr_left ?_
    intro s _
    by_cases hs : key s = key m
    · simp only [Function.comp_apply, if_pos hs,
        if_pos (show key (upd s m) = key m from (hkey s).trans hs)]
      exact hidem s
    · simp only [Function.comp_apply, if_neg hs]
  · have hany' : table.any (fun r => decide (key r = key m)) = false := by
      simpa using hany
    have step1 : upsertBy key upd table m = table ++ [m] := by
      simp only [upsertBy, hany', Bool.false_eq_true, if_false]
    rw [step1]
    have hany2 : (table ++ [m]).any (fun r => decide (key r = key m)) = true := by
      simp
    unfold upsertBy
    rw [if_pos hany2, List.map_append]
    have hmap1 : table.map (fun r => if key r = key m then upd r m else r)
        = table := by
      refine (List.map_congr_left ?_).trans (List.map_id' table)
      intro s hs
      rw [if_neg]
      have := List.any_eq_false.mp hany' s hs
      simpa using this
    have hmap2 : [m].map (fun r => if key r = key m then upd r m else r)
        = [m] := by
      simp [hself]
    rw [hmap1, hmap2]

end KeyedTable

/-! #### The per-table operations are instances of the generic ones -/

/-- The spend update on an account row: payload, balance, spent flag,
slot and tree from the incoming row. -/
def updSpendUtxo (r m : UtxoRow) : UtxoRow :=
  { r with data := m.data, lamports := m.lamports, spent := m.spent,
           slot_updated := m.slot_updated, tree := m.tree }

/-- The spend update on a token row: amount and spent flag from the
incoming row. -/
def updSpendToken (r m : TokenOwnerRow) : TokenOwnerRow :=
  { r with amount := m.amount, spent := m.spent }

theorem utxoUpsertSpend_eq :
    utxoUpsertSpend = upsertBy (fun r : UtxoRow => r.hash) updSpendUtxo := rfl

theorem utxoInsertDoNothing_eq :
    utxoInsertDoNothing = insertDN (fun r : UtxoRow => r.hash) := rfl

theorem tokenUpsertSpend_eq :
    tokenUpsertSpend = upsertBy (fun r : TokenOwnerRow => r.hash) updSpendToken := rfl

theorem tokenInsertDoNothing_eq :
    tokenInsertDoNothing = insertDN (fun r : TokenOwnerRow => r.hash) := rfl

theorem findUtxo_eq : findUtxo = findKey (fun r : UtxoRow => r.hash) := rfl

theorem findToken_eq : findToken = findKey (fun r : TokenOwnerRow => r.hash) := rfl

/-! ### Lemmas about the sequence-guarded path-node upsert -/

/-- A single-node call to `persist_path_nodes` is one row upsert. -/
theorem persist_path_nodes_single (db : DB) (n : EnrichedPathNode) :
    persist_path_nodes db [n]
      = ({ db with state_trees := stateTreeUpsert db.state_trees (nodeModel n) },
         none) := by
  simp [persist_path_nodes]

/-- Upserting a row whose key is absent appends it. -/
theorem stateTreeUpsert_fresh (table : List StateTreeRow) (m : StateTreeRow)
    (h : findNode table m.tree m.node_idx = none) :
    stateTreeUpsert table m = table ++ [m] := by
  have h' := List.find?_eq_none.mp h
  have hany : table.any
      (fun r => decide (r.tree = m.tree ∧ r.node_idx = m.node_idx)) = false := by
    rw [List.any_eq_false]
    intro r hr
    simpa using h' r hr
  simp only [stateTreeUpsert, hany, Bool.false_eq_true, if_false]

/-- Upserting a row whose key is present rewrites the matching rows
through the sequence-guarded column update. -/
theorem stateTreeUpsert_found (table : List StateTreeRow) (m r : StateTreeRow)
    (h : findNode table m.tree m.node_idx = some r) :
    stateTreeUpsert table m
      = table.map (fun s =>
          if s.tree = m.tree ∧ s.node_idx = m.node_idx then
            if m.seq > s.seq then
              { s with hash := m.hash, seq := m.seq,
                       slot_updated := m.slot_updated }
            else s
          else s) := by
  have hmem := List.mem_of_find?_eq_some h
  have hpred := List.find?_some h
  have hany : table.any
      (fun s => decide (s.tree = m.tree ∧ s.node_idx = m.node_idx)) = true :=
    List.any_eq_true.mpr ⟨r, hmem, hpred⟩
  simp only [stateTreeUpsert, hany, if_true]

/-- Looking a key up after a key-preserving conditional rewrite of the
matching rows returns the rewritten stored row. -/
theorem findNode_map_guard (table : List StateTreeRow) (tree : Bytes)
    (idx : Int) (f : StateTreeRow → StateTreeRow)
    (hf : ∀ s, (f s).tree = s.tree ∧ (f s).node_idx = s.node_idx) :
    findNode (table.map (fun s => if s.tree = tree ∧ s.node_idx = idx then f s else s))
        tree idx
      = (findNode table tree idx).map f := by
  induction table with
  | nil => rfl
  | cons a t ih =>
    simp only [List.map_cons]
    by_cases h : a.tree = tree ∧ a.node_idx = idx
    · have hfa : (f a).tree = tree ∧ (f a).node_idx = idx := by
        rcases hf a with ⟨h1, h2⟩
        exact ⟨h1.trans h.1, h2.trans h.2⟩
      unfold findNode
      rw [if_pos h, List.find?_cons_of_pos _ (by simpa using hfa),
        List.find?_cons_of_pos _ (by simpa using h)]
      rfl
    · unfold findNode
      rw [if_neg h, List.find?_cons_of_neg _ (by simpa using h),
        List.find?_cons_of_neg _ (by simpa using h)]
      exact ih

/-- Looking up the key of a sequence-guarded upsert that found a stored
row: the row is updated exactly when the incoming sequence is greater. -/
theorem findNode_stateTreeUpsert_found (table : List StateTreeRow)
    (m r : StateTreeRow) (h : findNode table m.tree m.node_idx = some r) :
    findNode (stateTreeUpsert table m) m.tree m.node_idx
      = some (if m.seq > r.seq then
          { r with hash := m.hash, seq := m.seq, slot_updated := m.slot_updated }
        else r) := by
  rw [stateTreeUpsert_found table m r h]
  have hg := findNode_map_guard table m.tree m.node_idx
    (fun s => if m.seq > s.seq then
        { s with hash := m.hash, seq := m.seq, slot_updated := m.slot_updated }
      else s)
    (by intro s; by_cases hc : m.seq > s.seq <;> simp [hc])
  exact hg.trans (by rw [h]; rfl)

/-! ### C1: monotonic sequence guard of the path-node upsert -/

/-- C1: (i) under the primary-key constraint, a path-node write whose
sequence number is not strictly greater than the stored one is silently
ignored; (ii) a strictly greater write applies exactly the incoming hash,
sequence number and slot to the stored row; (iii) for a key not yet
present, two updates with sequence numbers `n1.seq < n2.seq` delivered in
either order leave the stored hash and slot carried by the higher-sequence
update, and the stored sequence number is their maximum. -/
theorem path_node_monotonic_seq_guard (db : DB) (n1 n2 : EnrichedPathNode)
    (r : StateTreeRow) :
    (uniqueNodeKeys db.state_trees →
      findNode db.state_trees n1.tree (n1.node.index : Int) = some r →
      n1.seq ≤ r.seq →
      persist_path_nodes db [n1] = (db, none)) ∧
    (findNode db.state_trees n1.tree (n1.node.index : Int) = some r →
      r.seq < n1.seq →
      findNode ((persist_path_nodes db [n1]).1.state_trees) n1.tree
          (n1.node.index : Int)
        = some { r with hash := n1.node.node, seq := n1.seq,
                        slot_updated := i64ofNat n1.slot }) ∧
    (findNode db.state_trees n1.tree (n1.node.index : Int) = none →
      n2.tree = n1.tree → n2.node.index = n1.node.index → n1.seq < n2.seq →
      ((findNode ((persist_path_nodes (persist_path_nodes db [n1]).1
              [n2]).1.state_trees) n1.tree (n1.node.index : Int)).map
          (fun s => (s.hash, s.slot_updated, s.seq))
        = some (n2.node.node, i64ofNat n2.slot, n2.seq)) ∧
      ((findNode ((persist_path_nodes (persist_path_nodes db [n2]).1
              [n1]).1.state_trees) n1.tree (n1.node.index : Int)).map
          (fun s => (s.hash, s.slot_updated, s.seq))
        = some (n2.node.node, i64ofNat n2.slot, n2.seq))) := by
  refine ⟨fun huniq hfind hle => ?_, fun hfind hlt => ?_,
    fun habs htree hidx hlt => ?_⟩
  · -- stale write: the guarded update leaves every row unchanged
    have hkey : ∀ s ∈ db.state_trees,
        (s.tree = (nodeModel n1).tree ∧ s.node_idx = (nodeModel n1).node_idx) →
        s = r := by
      intro s hs hsk
      by_contra hne
      have hrmem := List.mem_of_find?_eq_some hfind
      have hrk : r.tree = n1.tree ∧ r.node_idx = (n1.node.index : Int) := by
        simpa using List.find?_some hfind
      have hR := List.Pairwise.forall
        (R := fun a b : StateTreeRow =>
          ¬(a.tree = b.tree ∧ a.node_idx = b.node_idx))
        (fun _ _ hab hk => hab ⟨hk.1.symm, hk.2.symm⟩) huniq hs hrmem hne
      exact hR ⟨hsk.1.trans hrk.1.symm, hsk.2.trans hrk.2.symm⟩
    rw [persist_path_nodes_single,
      stateTreeUpsert_found db.state_trees (nodeModel n1) r hfind]
    have hid : ∀ s ∈ db.state_trees,
        (if s.tree = (nodeModel n1).tree ∧ s.node_idx = (nodeModel n1).node_idx then
          if (nodeModel n1).seq > s.seq then
            { s with hash := (nodeModel n1).hash, seq := (nodeModel n1).seq,
                     slot_updated := (nodeModel n1).slot_updated }
          else s
        else s) = s := by
      intro s hs
      by_cases hsk : s.tree = (nodeModel n1).tree ∧ s.node_idx = (nodeModel n1).node_idx
      · rw [if_pos hsk]
        have hsr : s = r := hkey s hs hsk
        subst hsr
        rw [if_neg (show ¬((nodeModel n1).seq > s.seq) from not_lt.mpr hle)]
      · rw [if_neg hsk]
    rw [List.map_congr_left hid, List.map_id']
  · -- strictly-greater write: exactly hash, seq and slot are applied
    have h1 := findNode_stateTreeUpsert_found db.state_trees (nodeModel n1) r hfind
    rw [if_pos (show (nodeModel n1).seq > r.seq from hlt)] at h1
    exact h1
  · -- either delivery order ends at the higher-sequence update
    have hm2 : (nodeModel n2).tree = n1.tree := htree
    have hm2i : (nodeModel n2).node_idx = (n1.node.index : Int) := by
      simp [nodeModel, hidx]
    constructor
    · -- n1 first (fresh insert), then n2 (guard passes)
      have hfresh1 : stateTreeUpsert db.state_trees (nodeModel n1)
          = db.state_trees ++ [nodeModel n1] :=
        stateTreeUpsert_fresh db.state_trees (nodeModel n1) habs
      have e1 : (persist_path_nodes db [n1]).1
          = { db with state_trees := db.state_trees ++ [nodeModel n1] } := by
        rw [persist_path_nodes_single, hfresh1]
      have e2 : (persist_path_nodes (persist_path_nodes db [n1]).1 [n2]).1.state_trees
          = stateTreeUpsert (db.state_trees ++ [nodeModel n1]) (nodeModel n2) := by
        rw [e1, persist_path_nodes_single]
      have hfind1 : findNode (db.state_trees ++ [nodeModel n1]) n1.tree
          (n1.node.index : Int) = some (nodeModel n1) := by
        unfold findNode at habs ⊢
        rw [List.find?_append, habs]
        simp [nodeModel]
      have h2 := findNode_stateTreeUpsert_found (db.state_trees ++ [nodeModel n1])
        (nodeModel n2) (nodeModel n1) (by rw [hm2, hm2i]; exact hfind1)
      rw [if_pos (show (nodeModel n2).seq > (nodeModel n1).seq from hlt)] at h2
      rw [hm2, hm2i] at h2
      rw [e2, h2]
      simp [nodeModel]
    · -- n2 first (fresh insert), then n1 (guard fails)
      have hfresh2 : stateTreeUpsert db.state_trees (nodeModel n2)
          = db.state_trees ++ [nodeModel n2] :=
        stateTreeUpsert_fresh db.state_trees (nodeModel n2)
          (by rw [hm2, hm2i]; exact habs)
      have e1 : (persist_path_nodes db [n2]).1
          = { db with state_trees := db.state_trees ++ [nodeModel n2] } := by
        rw [persist_path_nodes_single, hfresh2]
      have e2 : (persist_path_nodes (persist_path_nodes db [n2]).1 [n1]).1.state_trees
          = stateTreeUpsert (db.state_trees ++ [nodeModel n2]) (nodeModel n1) := by
        rw [e1, persist_path_nodes_single]
      have hfind2 : findNode (db.state_trees ++ [nodeModel n2]) n1.tree
          (n1.node.index : Int) = some (nodeModel n2) := by
        unfold findNode at habs ⊢
        rw [List.find?_append, habs]
        simp [nodeModel, htree, hidx]
      have h2 := findNode_stateTreeUpsert_found (db.state_trees ++ [nodeModel n2])
        (nodeModel n1) (nodeModel n2) hfind2
      rw [if_neg (show ¬((nodeModel n1).seq > (nodeModel n2).seq) from
        not_lt.mpr hlt.le)] at h2
      have hm1 : (nodeModel n1).tree = n1.tree := rfl
      have hm1i : (nodeModel n1).node_idx = (n1.node.index : Int) := rfl
      rw [hm1, hm1i] at h2
      rw [e2, h2]
      simp [nodeModel]

/-- Witness for C1: a stored row with sequence 7 ignores an equal-sequence
write and accepts a sequence-9 write; on an empty table, sequence-0 and
sequence-1 writes end at the sequence-1 state in either delivery order. -/
theorem path_node_monotonic_seq_guard_witness :
    let r0 : StateTreeRow :=
      { tree := [1], node_idx := 4, leaf_idx := none, level := 2,
        hash := [7, 7], seq := 7, slot_updated := 70 }
    let dbr : DB := { utxos := [], token_owners := [], state_trees := [r0] }
    let stale : EnrichedPathNode :=
      { node := { node := [8, 8], index := 4 }, slot := 80, tree := [1],
        seq := 7, level := 2, tree_depth := 20 }
    let newer : EnrichedPathNode :=
      { node := { node := [9, 9], index := 4 }, slot := 90, tree := [1],
        seq := 9, level := 2, tree_depth := 20 }
    let db0 : DB := { utxos := [], token_owners := [], state_trees := [] }
    let u0 : EnrichedPathNode :=
      { node := { node := [10], index := 4 }, slot := 100, tree := [1],
        seq := 0, level := 2, tree_depth := 20 }
    let u1 : EnrichedPathNode :=
      { node := { node := [11], index := 4 }, slot := 110, tree := [1],
        seq := 1, level := 2, tree_depth := 20 }
    persist_path_nodes dbr [stale] = (dbr, none) ∧
    findNode ((persist_path_nodes dbr [newer]).1.state_trees) [1] 4
      = some { r0 with hash := [9, 9], seq := 9, slot_updated := 90 } ∧
    ((findNode ((persist_path_nodes (persist_path_nodes db0 [u0]).1
          [u1]).1.state_trees) [1] 4).map
        (fun s => (s.hash, s.slot_updated, s.seq))
      = some ([11], (110 : Int), (1 : Int))) ∧
    ((findNode ((persist_path_nodes (persist_path_nodes db0 [u1]).1
          [u0]).1.state_trees) [1] 4).map
        (fun s => (s.hash, s.slot_updated, s.seq))
      = some ([11], (110 : Int), (1 : Int))) := by
  intro r0 dbr stale newer db0 u0 u1
  have h1 := (path_node_monotonic_seq_guard dbr stale stale r0).1
    (by simp [uniqueNodeKeys, dbr]) (by rfl) (by decide)
  have h2 := (path_node_monotonic_seq_guard dbr newer newer r0).2.1
    (by rfl) (by decide)
  have h3 := (path_node_monotonic_seq_guard db0 u0 u1 r0).2.2
    (by rfl) (by rfl) (by rfl) (by decide)
  have hcast : i64ofNat u1.slot = (110 : Int) := by decide
  refine ⟨h1, ?_, ?_, ?_⟩
  · simpa using h2
  · have := h3.1
    rw [hcast] at this
    simpa using this
  · have := h3.2
    rw [hcast] at this
    simpa using this

/-! ### C6: leaf-index derivation and storage -/

/-- C6: a first-observation path-node write stores exactly the built row;
at level 0 with node index in `[2^h, 2^(h+1))` the stored leaf index is
`some (i - 2^h)`, and at any other level it is absent. -/
theorem leaf_idx_stored (db : DB) (n : EnrichedPathNode)
    (habs : findNode db.state_trees n.tree (n.node.index : Int) = none) :
    findNode ((persist_path_nodes db [n]).1.state_trees) n.tree
        (n.node.index : Int) = some (nodeModel n) ∧
    (n.level = 0 → 2 ^ n.tree_depth ≤ n.node.index →
      n.node.index < 2 ^ (n.tree_depth + 1) →
      (nodeModel n).leaf_idx
        = some ((n.node.index : Int) - 2 ^ n.tree_depth)) ∧
    (n.level ≠ 0 → (nodeModel n).leaf_idx = none) := by
  refine ⟨?_, fun h0 _ _ => ?_, fun hne => ?_⟩
  · rw [persist_path_nodes_single,
      stateTreeUpsert_fresh db.state_trees (nodeModel n) habs]
    unfold findNode at habs ⊢
    rw [List.find?_append, habs]
    simp [nodeModel]
  · simp [nodeModel, h0, node_idx_to_leaf_idx]
  · simp [nodeModel, hne]

/-- Witness for C6: height 20, node index `2^20 + 5`: the stored leaf
index is 5; and a level-1 node stores no leaf index. -/
theorem leaf_idx_stored_witness :
    let n : EnrichedPathNode :=
      { node := { node := [9], index := 2 ^ 20 + 5 }, slot := 3, tree := [1],
        seq := 0, level := 0, tree_depth := 20 }
    let m : EnrichedPathNode :=
      { node := { node := [9], index := 2 }, slot := 3, tree := [2],
        seq := 0, level := 1, tree_depth := 20 }
    let db : DB := { utxos := [], token_owners := [], state_trees := [] }
    findNode ((persist_path_nodes db [n]).1.state_trees) n.tree
        (n.node.index : Int) = some (nodeModel n) ∧
    (nodeModel n).leaf_idx = some 5 ∧
    (nodeModel m).leaf_idx = none := by
  intro n m db
  refine ⟨(leaf_idx_stored db n rfl).1, ?_,
    (leaf_idx_stored db m rfl).2.2 (by decide)⟩
  have h := (leaf_idx_stored db n rfl).2.1 rfl (by norm_num) (by norm_num)
  rw [h]
  norm_num

/-! ### Shape of a single-account spend -/

/-- A single-account spend whose token parse fails: the account-row
statement has already been issued when the error is raised. -/
theorem spend_single_err (db : DB) (a : EnrichedAccount) (e : IngesterError)
    (hp : parse_token_data a.account = Except.error e) :
    spend_input_accounts db [a]
      = ({ db with utxos := utxoUpsertSpend db.utxos (spendUtxoModel a) },
         some e) := by
  simp [spend_input_accounts, buildSpendTokenModels, hp]

/-- A single-account spend of a non-token account: only the account row is
touched. -/
theorem spend_single_none (db : DB) (a : EnrichedAccount)
    (hp : parse_token_data a.account = Except.ok none) :
    spend_input_accounts db [a]
      = ({ db with utxos := utxoUpsertSpend db.utxos (spendUtxoModel a) },
         none) := by
  simp [spend_input_accounts, buildSpendTokenModels, hp]

/-- A single-account spend of a token account: the account row and the
token row are both upserted. -/
theorem spend_single_some (db : DB) (a : EnrichedAccount) (td : TokenData)
    (hp : parse_token_data a.account = Except.ok (some td)) :
    spend_input_accounts db [a]
      = ({ db with
            utxos := utxoUpsertSpend db.utxos (spendUtxoModel a)
            token_owners :=
              tokenUpsertSpend db.token_owners (spendTokenModel a) },
         none) := by
  simp [spend_input_accounts, buildSpendTokenModels, hp, Except.map]

/-- The account-row effect of a single-account spend, whatever the token
parse outcome. -/
theorem spend_single_utxos (db : DB) (a : EnrichedAccount) :
    (spend_input_accounts db [a]).1.utxos
      = utxoUpsertSpend db.utxos (spendUtxoModel a) := by
  cases hp : parse_token_data a.account with
  | error e => rw [spend_single_err db a e hp]
  | ok od =>
    cases od with
    | none => rw [spend_single_none db a hp]
    | some td => rw [spend_single_some db a td hp]

/-! ### C4: spend upsert of the account row -/

/-- C4: a spend upserts the account row with `spent = true`, payload
cleared, balance zeroed, slot updated and tree set; on hash conflict
exactly the payload, balance, spent flag, slot and tree columns are
rewritten (address, owner and sequence are untouched); when no row for the
hash existed, a spent zero-payload record is created. -/
theorem spend_account_row_upsert (db : DB) (a : EnrichedAccount)
    (r : UtxoRow) :
    (findUtxo db.utxos a.hash = some r →
      findUtxo ((spend_input_accounts db [a]).1.utxos) a.hash
        = some { r with
                  data := [], lamports := 0, spent := true,
                  slot_updated := i64ofNat a.slot, tree := some a.tree }) ∧
    (findUtxo db.utxos a.hash = none →
      findUtxo ((spend_input_accounts db [a]).1.utxos) a.hash
        = some { hash := a.hash, account := none, data := [], owner := [],
                 lamports := 0, spent := true, tree := some a.tree,
                 slot_updated := i64ofNat a.slot, seq := none }) := by
  constructor
  · intro hfound
    rw [spend_single_utxos, utxoUpsertSpend_eq, findUtxo_eq]
    exact findKey_upsertBy_found (fun s : UtxoRow => s.hash) updSpendUtxo
      db.utxos (spendUtxoModel a) r (fun _ => rfl) hfound
  · intro habs
    rw [spend_single_utxos, utxoUpsertSpend_eq, findUtxo_eq,
      upsertBy_fresh (fun s : UtxoRow => s.hash) updSpendUtxo db.utxos
        (spendUtxoModel a) habs,
      findKey_append,
      show findKey (fun s : UtxoRow => s.hash) db.utxos a.hash = none from habs]
    simp [findKey, spendUtxoModel]

/-- Witness for C4: spending a stored hash rewrites exactly the narrow
columns and keeps the address; spending an unseen hash creates the spent
zero-payload record. -/
theorem spend_account_row_upsert_witness :
    let prior : UtxoRow :=
      { hash := [1], account := some [9], data := [4, 4], owner := [3],
        lamports := 12, spent := false, tree := none, slot_updated := 1,
        seq := some 3 }
    let a : EnrichedAccount :=
      { account := accNoData, tree := [2], seq := none, hash := [1], slot := 9 }
    let b : EnrichedAccount :=
      { account := accNoData, tree := [2], seq := none, hash := [5], slot := 9 }
    let db : DB := { utxos := [prior], token_owners := [], state_trees := [] }
    findUtxo ((spend_input_accounts db [a]).1.utxos) [1]
      = some { prior with
                data := [], lamports := 0, spent := true,
                slot_updated := 9, tree := some [2] } ∧
    findUtxo ((spend_input_accounts db [b]).1.utxos) [5]
      = some { hash := [5], account := none, data := [], owner := [],
               lamports := 0, spent := true, tree := some [2],
               slot_updated := 9, seq := none } := by
  intro prior a b db
  exact ⟨(spend_account_row_upsert db a prior).1 rfl,
    (spend_account_row_upsert db b prior).2 rfl⟩

/-! ### C7: spend idempotence -/

/-- C7: re-applying a spend with the same hash, tree and slot leaves the
stored state (account row and derived token row alike) unchanged. -/
theorem spend_idempotent (db db' : DB) (a : EnrichedAccount)
    (h : spend_input_accounts db [a] = (db', none)) :
    spend_input_accounts db' [a] = (db', none) := by
  cases hp : parse_token_data a.account with
  | error e =>
    rw [spend_single_err db a e hp] at h
    exact absurd (congrArg Prod.snd h) (by simp)
  | ok od =>
    cases od with
    | none =>
      rw [spend_single_none db a hp, Prod.mk.injEq] at h
      obtain ⟨h1, -⟩ := h
      subst h1
      have hidem : utxoUpsertSpend
          (utxoUpsertSpend db.utxos (spendUtxoModel a)) (spendUtxoModel a)
          = utxoUpsertSpend db.utxos (spendUtxoModel a) := by
        rw [utxoUpsertSpend_eq]
        exact upsertBy_idem (fun s : UtxoRow => s.hash) updSpendUtxo db.utxos
          (spendUtxoModel a) (fun _ => rfl) (fun _ => rfl) rfl
      have e1 : spend_input_accounts
          { db with utxos := utxoUpsertSpend db.utxos (spendUtxoModel a) } [a]
          = ({ db with
                utxos := utxoUpsertSpend
                  (utxoUpsertSpend db.utxos (spendUtxoModel a))
                  (spendUtxoModel a) }, none) :=
        spend_single_none _ a hp
      exact e1.trans (by rw [hidem])
    | some td =>
      rw [spend_single_some db a td hp, Prod.mk.injEq] at h
      obtain ⟨h1, -⟩ := h
      subst h1
      have hidemU : utxoUpsertSpend
          (utxoUpsertSpend db.utxos (spendUtxoModel a)) (spendUtxoModel a)
          = utxoUpsertSpend db.utxos (spendUtxoModel a) := by
        rw [utxoUpsertSpend_eq]
        exact upsertBy_idem (fun s : UtxoRow => s.hash) updSpendUtxo db.utxos
          (spendUtxoModel a) (fun _ => rfl) (fun _ => rfl) rfl
      have hidemT : tokenUpsertSpend
          (tokenUpsertSpend db.token_owners (spendTokenModel a))
          (spendTokenModel a)
          = tokenUpsertSpend db.token_owners (spendTokenModel a) := by
        rw [tokenUpsertSpend_eq]
        exact upsertBy_idem (fun s : TokenOwnerRow => s.hash) updSpendToken
          db.token_owners (spendTokenModel a) (fun _ => rfl) (fun _ => rfl) rfl
      have e1 : spend_input_accounts
          { db with
            utxos := utxoUpsertSpend db.utxos (spendUtxoModel a)
            token_owners :=
              tokenUpsertSpend db.token_owners (spendTokenModel a) } [a]
          = ({ db with
                utxos := utxoUpsertSpend
                  (utxoUpsertSpend db.utxos (spendUtxoModel a))
                  (spendUtxoModel a)
                token_owners := tokenUpsertSpend
                  (tokenUpsertSpend db.token_owners (spendTokenModel a))
                  (spendTokenModel a) }, none) :=
        spend_single_some _ a td hp
      exact e1.trans (by rw [hidemU, hidemT])

/-- Witness for C7: a token-account spend applied twice, on a database
where its hash had never been seen, stops changing state after the first
application. -/
theorem spend_idempotent_witness :
    let a : EnrichedAccount :=
      { account := accGood, tree := [1], seq := none, hash := [1], slot := 9 }
    let db : DB := { utxos := [], token_owners := [], state_trees := [] }
    spend_input_accounts (spend_input_accounts db [a]).1 [a]
      = ((spend_input_accounts db [a]).1, none) := by
  intro a db
  exact spend_idempotent db (spend_input_accounts db [a]).1 a (by decide)

/-! ### C8: spend upsert of the token-index row (corrected) -/

/-- Counterexample to C8 as stated: on hash conflict the token-index spend
updates only the amount and spent columns; the stored slot is NOT
rewritten to the spend's slot. A stored token row at slot 5 spent at slot
9 keeps slot 5. -/
theorem spend_token_slot_counterexample :
    let a : EnrichedAccount :=
      { account := accGood, tree := [2], seq := none, hash := [1], slot := 9 }
    let prior : TokenOwnerRow :=
      { hash := [1], account := none, mint := [2], owner := [3], amount := 50,
        delegate := none, frozen := false, is_native := none,
        delegated_amount := 7, spent := false, slot_updated := 5 }
    let db : DB := { utxos := [], token_owners := [prior], state_trees := [] }
    findToken ((spend_input_accounts db [a]).1.token_owners) [1]
      = some { prior with amount := 0, spent := true } ∧
    ¬ findToken ((spend_input_accounts db [a]).1.token_owners) [1]
      = some { prior with amount := 0, spent := true, slot_updated := 9 } := by
  intro a prior db
  exact ⟨by decide, by decide⟩

/-- C8 (amended): for a consumed account that re-derives as a token
account, the spend succeeds and upserts the token row; on hash conflict
exactly the amount (zeroed) and spent flag are updated — mint, owner,
delegate, frozen, delegated amount, native marker, address AND the stored
slot are all left unchanged; only a fresh insert records the spend's slot
(with amount 0, spent true, hash preserved). -/
theorem spend_token_row_upsert (db : DB) (a : EnrichedAccount)
    (td : TokenData) (r : TokenOwnerRow)
    (hp : parse_token_data a.account = Except.ok (some td)) :
    (spend_input_accounts db [a]).2 = none ∧
    (findToken db.token_owners a.hash = some r →
      findToken ((spend_input_accounts db [a]).1.token_owners) a.hash
        = some { r with amount := 0, spent := true }) ∧
    (findToken db.token_owners a.hash = none →
      findToken ((spend_input_accounts db [a]).1.token_owners) a.hash
        = some { hash := a.hash, account := none, mint := [], owner := [],
                 amount := 0, delegate := none, frozen := false,
                 is_native := none, delegated_amount := 0, spent := true,
                 slot_updated := i64ofNat a.slot }) := by
  rw [spend_single_some db a td hp]
  refine ⟨rfl, fun hfound => ?_, fun habs => ?_⟩
  · exact findKey_upsertBy_found (fun s : TokenOwnerRow => s.hash)
      updSpendToken db.token_owners (spendTokenModel a) r (fun _ => rfl) hfound
  · show findKey (fun s : TokenOwnerRow => s.hash)
      (upsertBy (fun s : TokenOwnerRow => s.hash) updSpendToken
        db.token_owners (spendTokenModel a)) a.hash = _
    rw [upsertBy_fresh (fun s : TokenOwnerRow => s.hash) updSpendToken
        db.token_owners (spendTokenModel a) habs,
      findKey_append,
      show findKey (fun s : TokenOwnerRow => s.hash) db.token_owners a.hash
        = none from habs]
    simp [findKey, spendTokenModel]

/-- Witness for C8 (amended): spending a token account with a stored row
at slot 5 zeroes amount, sets spent, and keeps mint, owner and slot; on an
unseen hash the spend's slot is recorded. -/
theorem spend_token_row_upsert_witness :
    let a : EnrichedAccount :=
      { account := accGood, tree := [2], seq := none, hash := [1], slot := 9 }
    let b : EnrichedAccount :=
      { account := accGood, tree := [2], seq := none, hash := [6], slot := 9 }
    let prior : TokenOwnerRow :=
      { hash := [1], account := none, mint := [2], owner := [3], amount := 50,
        delegate := none, frozen := false, is_native := none,
        delegated_amount := 7, spent := false, slot_updated := 5 }
    let db : DB := { utxos := [], token_owners := [prior], state_trees := [] }
    (spend_input_accounts db [a]).2 = none ∧
    findToken ((spend_input_accounts db [a]).1.token_owners) [1]
      = some { prior with amount := 0, spent := true } ∧
    findToken ((spend_input_accounts db [b]).1.token_owners) [6]
      = some { hash := [6], account := none, mint := [], owner := [],
               amount := 0, delegate := none, frozen := false,
               is_native := none, delegated_amount := 0, spent := true,
               slot_updated := 9 } := by
  intro a b prior db
  have hp : parse_token_data accGood = Except.ok (some demoTokenData) := rfl
  exact ⟨(spend_token_row_upsert db a demoTokenData prior hp).1,
    (spend_token_row_upsert db a demoTokenData prior hp).2.1 rfl,
    (spend_token_row_upsert db b demoTokenData prior hp).2.2 rfl⟩

/-! ### Chunking lemmas -/

theorem chunksOf_zero (l : List α) : chunksOf 0 l = [] := by
  unfold chunksOf
  simp

theorem chunksOf_nil (n : Nat) : chunksOf n ([] : List α) = [] := by
  unfold chunksOf
  simp

theorem chunksOf_cons (n : Nat) (l : List α) (hn : n ≠ 0) (hl : l ≠ []) :
    chunksOf n l = l.take n :: chunksOf n (l.drop n) := by
  conv_lhs => rw [chunksOf]
  rw [dif_neg hn, dif_neg (by simpa using hl)]

/-- Every chunk respects the per-statement write budget. -/
theorem chunksOf_length_le (n : Nat) (l : List α) :
    ∀ c ∈ chunksOf n l, c.length ≤ n := by
  refine chunksOf.induct n (fun x => ∀ c ∈ chunksOf n x, c.length ≤ n)
    ?_ ?_ ?_ l
  · intro x h0 c hc
    rw [h0, chunksOf_zero] at hc
    cases hc
  · intro x hn0 hemp c hc
    have hx : x = [] := by simpa using hemp
    rw [hx, chunksOf_nil] at hc
    cases hc
  · intro x hn0 hne ih c hc
    rw [chunksOf_cons _ x hn0 (by simpa using hne)] at hc
    rcases List.mem_cons.mp hc with h | h
    · subst h
      simp [List.length_take]
    · exact ih c h

/-- The number of chunks is the rounded-up quotient of the list length by
the chunk size. -/
theorem chunksOf_count (n : Nat) (hn : n ≠ 0) (l : List α) :
    (chunksOf n l).length = (l.length + n - 1) / n := by
  refine chunksOf.induct n (fun x => (chunksOf n x).length = (x.length + n - 1) / n)
    ?_ ?_ ?_ l
  · intro x h0
    exact absurd h0 hn
  · intro x hn0 hemp
    have hx : x = [] := by simpa using hemp
    rw [hx, chunksOf_nil]
    have : (0 + n - 1) / n = 0 := Nat.div_eq_of_lt (by omega)
    simpa using this.symm
  · intro x hn0 hne ih
    rw [chunksOf_cons n x hn0 (by simpa using hne)]
    simp only [List.length_cons, ih, List.length_drop]
    have hx1 : 1 ≤ x.length := by
      cases x with
      | nil => simp at hne
      | cons a t => simp
    rcases le_or_lt x.length n with hle | hlt
    · have e1 : x.length - n + n - 1 = n - 1 := by omega
      have e2 : (n - 1) / n = 0 := Nat.div_eq_of_lt (by omega)
      have e3 : (x.length + n - 1) / n = 1 :=
        Nat.div_eq_of_lt_le (by omega) (by omega)
      rw [e1, e2, e3]
    · have e1 : x.length - n + n - 1 = x.length - 1 := by omega
      have e2 : x.length + n - 1 = (x.length - 1) + n := by omega
      rw [e1, e2, Nat.add_div_right _ (Nat.pos_of_ne_zero hn)]

/-! ### C2: append idempotence -/

/-- C2: applying the same produced-account batch twice through the append
processor leaves the account rows and token-index rows exactly as after
one application, and the second application is not an error. -/
theorem append_idempotent (db db' : DB) (b : List EnrichedAccount)
    (h : append_output_accounts db b = (db', none)) :
    append_output_accounts db' b = (db', none) := by
  cases hb : buildOutModels b with
  | error e =>
    have h' : append_output_accounts db b = (db, some e) := by
      simp [append_output_accounts, hb]
    rw [h'] at h
    exact absurd (congrArg Prod.snd h) (by simp)
  | ok p =>
    obtain ⟨ams, tas⟩ := p
    by_cases hbe : b.isEmpty
    · have h' : append_output_accounts db b = (db, none) := by
        simp [append_output_accounts, hb, hbe]
      rw [h', Prod.mk.injEq] at h
      obtain ⟨h1, -⟩ := h
      subst h1
      exact h'
    · by_cases hte : tas.isEmpty
      · have h' : append_output_accounts db b
            = ({ db with
                 utxos := List.foldl utxoInsertDoNothing db.utxos ams },
               none) := by
          simp [append_output_accounts, hb, hbe, hte]
        rw [h', Prod.mk.injEq] at h
        obtain ⟨h1, -⟩ := h
        subst h1
        have hidem : List.foldl utxoInsertDoNothing
            (List.foldl utxoInsertDoNothing db.utxos ams) ams
            = List.foldl utxoInsertDoNothing db.utxos ams := by
          rw [utxoInsertDoNothing_eq]
          exact foldl_insertDN_idem (fun r : UtxoRow => r.hash) ams db.utxos
        have h2 : append_output_accounts
            { db with utxos := List.foldl utxoInsertDoNothing db.utxos ams } b
            = ({ db with
                 utxos := List.foldl utxoInsertDoNothing
                   (List.foldl utxoInsertDoNothing db.utxos ams) ams },
               none) := by
          simp [append_output_accounts, hb, hbe, hte]
        rw [h2, hidem]
      · have h' : append_output_accounts db b
            = ({ db with
                 utxos := List.foldl utxoInsertDoNothing db.utxos ams
                 token_owners := List.foldl tokenInsertDoNothing
                   db.token_owners (tas.map tokenModel) },
               none) := by
          simp [append_output_accounts, hb, hbe, hte, persist_token_accounts]
        rw [h', Prod.mk.injEq] at h
        obtain ⟨h1, -⟩ := h
        subst h1
        have hidemU : List.foldl utxoInsertDoNothing
            (List.foldl utxoInsertDoNothing db.utxos ams) ams
            = List.foldl utxoInsertDoNothing db.utxos ams := by
          rw [utxoInsertDoNothing_eq]
          exact foldl_insertDN_idem (fun r : UtxoRow => r.hash) ams db.utxos
        have hidemT : List.foldl tokenInsertDoNothing
            (List.foldl tokenInsertDoNothing db.token_owners
              (tas.map tokenModel)) (tas.map tokenModel)
            = List.foldl tokenInsertDoNothing db.token_owners
                (tas.map tokenModel) := by
          rw [tokenInsertDoNothing_eq]
          exact foldl_insertDN_idem (fun r : TokenOwnerRow => r.hash) _
            db.token_owners
        have h2 : append_output_accounts
            { db with
              utxos := List.foldl utxoInsertDoNothing db.utxos ams
              token_owners := List.foldl tokenInsertDoNothing db.token_owners
                (tas.map tokenModel) } b
            = ({ db with
                 utxos := List.foldl utxoInsertDoNothing
                   (List.foldl utxoInsertDoNothing db.utxos ams) ams
                 token_owners := List.foldl tokenInsertDoNothing
                   (List.foldl tokenInsertDoNothing db.token_owners
                     (tas.map tokenModel)) (tas.map tokenModel) },
               none) := by
          simp [append_output_accounts, hb, hbe, hte, persist_token_accounts]
        rw [h2, hidemU, hidemT]

/-- Witness for C2: a two-token-account batch appended twice; the second
application returns the same state with no error. -/
theorem append_idempotent_witness :
    let b : List EnrichedAccount :=
      [{ account := accGood, tree := [1], seq := some 1, hash := [1], slot := 7 },
       { account := accGood, tree := [1], seq := some 2, hash := [2], slot := 7 }]
    let db : DB := { utxos := [], token_owners := [], state_trees := [] }
    append_output_accounts (append_output_accounts db b).1 b
      = ((append_output_accounts db b).1, none) := by
  intro b db
  exact append_idempotent db (append_output_accounts db b).1 b (by decide)

/-! ### C5: orchestrator order, chunking and the 2,500-account scenario -/

/-- The empty database. -/
def emptyDB : DB := { utxos := [], token_owners := [], state_trees := [] }

/-- The i-th produced token account of the scenario batch: distinct
content hashes, all decodable token payloads. -/
def scenarioAccount (i : Nat) : EnrichedAccount :=
  { account := accGood, tree := [1], seq := some i,
    hash := [i % 256, i / 256], slot := 7 }

/-- A batch of 2,500 produced accounts, no spends, no path nodes. -/
def scenarioBatch : StateUpdate :=
  { in_accounts := [], out_accounts := (List.range 2500).map scenarioAccount,
    path_nodes := [] }

/-- The token account collected by the append build loop for an account
whose payload is `demoTokenBytes`. -/
def scenarioToken (a : EnrichedAccount) : EnrichedTokenAccount :=
  { token_data := demoTokenData, hash := a.hash,
    account := a.account.address, slot_updated := a.slot }

/-- The build loop on a chunk of `accGood`-payload accounts: one account
row and one token account per input. -/
theorem buildOutModels_accGood (c : List EnrichedAccount)
    (hall : ∀ a ∈ c, a.account = accGood) :
    buildOutModels c = Except.ok (c.map outUtxoModel, c.map scenarioToken) := by
  induction c with
  | nil => rfl
  | cons a rest ih =>
    have ha : a.account = accGood := hall a (List.mem_cons_self _ _)
    have hp : parse_token_data a.account = Except.ok (some demoTokenData) := by
      rw [ha]; rfl
    have ihr := ih (fun x hx => hall x (List.mem_cons_of_mem _ hx))
    simp [buildOutModels, hp, ihr, scenarioToken]

/-- Appending one nonempty chunk of `accGood`-payload accounts issues the
account insert and the token insert. -/
theorem append_accGood (db : DB) (c : List EnrichedAccount) (hc : c ≠ [])
    (hall : ∀ a ∈ c, a.account = accGood) :
    append_output_accounts db c
      = ({ db with
            utxos := List.foldl utxoInsertDoNothing db.utxos
              (c.map outUtxoModel)
            token_owners := List.foldl tokenInsertDoNothing db.token_owners
              ((c.map scenarioToken).map tokenModel) }, none) := by
  cases c with
  | nil => exact absurd rfl hc
  | cons a rest =>
    have hb := buildOutModels_accGood (a :: rest) hall
    simp [append_output_accounts, hb, persist_token_accounts]

/-- Processing the chunks of a list of `accGood`-payload accounts
sequentially folds both batched inserts over the whole list. -/
theorem seqRun_append_chunks (n : Nat) (hn : n ≠ 0)
    (l : List EnrichedAccount) :
    ∀ (db : DB), (∀ a ∈ l, a.account = accGood) →
    seqRun append_output_accounts db (chunksOf n l)
      = ({ db with
            utxos := List.foldl utxoInsertDoNothing db.utxos
              (l.map outUtxoModel)
            token_owners := List.foldl tokenInsertDoNothing db.token_owners
              ((l.map scenarioToken).map tokenModel) }, none) := by
  refine chunksOf.induct n
    (fun x => ∀ (db : DB), (∀ a ∈ x, a.account = accGood) →
      seqRun append_output_accounts db (chunksOf n x)
        = ({ db with
              utxos := List.foldl utxoInsertDoNothing db.utxos
                (x.map outUtxoModel)
              token_owners := List.foldl tokenInsertDoNothing db.token_owners
                ((x.map scenarioToken).map tokenModel) }, none))
    ?_ ?_ ?_ l
  · intro x h0 db hall
    exact absurd h0 hn
  · intro x hn0 hemp db hall
    have hx : x = [] := by simpa using hemp
    subst hx
    rw [chunksOf_nil]
    rfl
  · intro x hn0 hne ih db hall
    have hxe : x ≠ [] := by simpa using hne
    rw [chunksOf_cons n x hn0 hxe]
    have htake : ∀ a ∈ x.take n, a.account = accGood :=
      fun a ha => hall a (List.take_subset n x ha)
    have hdrop : ∀ a ∈ x.drop n, a.account = accGood :=
      fun a ha => hall a (List.drop_subset n x ha)
    have htk : x.take n ≠ [] := by
      intro hcon
      have := congrArg List.length hcon
      simp only [List.length_take, List.length_nil] at this
      have hx1 : 0 < x.length := List.length_pos.mpr hxe
      omega
    simp only [seqRun]
    rw [append_accGood db (x.take n) htk htake]
    refine Eq.trans (ih _ hdrop) ?_
    have eU : List.foldl utxoInsertDoNothing
        (List.foldl utxoInsertDoNothing db.utxos ((x.take n).map outUtxoModel))
        ((x.drop n).map outUtxoModel)
        = List.foldl utxoInsertDoNothing db.utxos (x.map outUtxoModel) := by
      rw [← List.foldl_append, ← List.map_append, List.take_append_drop]
    have eT : List.foldl tokenInsertDoNothing
        (List.foldl tokenInsertDoNothing db.token_owners
          (((x.take n).map scenarioToken).map tokenModel))
        (((x.drop n).map scenarioToken).map tokenModel)
        = List.foldl tokenInsertDoNothing db.token_owners
            ((x.map scenarioToken).map tokenModel) := by
      rw [← List.foldl_append, ← List.map_append, ← List.map_append,
        List.take_append_drop]
    show ({ db with
            utxos := List.foldl utxoInsertDoNothing
              (List.foldl utxoInsertDoNothing db.utxos
                ((x.take n).map outUtxoModel)) ((x.drop n).map outUtxoModel)
            token_owners := List.foldl tokenInsertDoNothing
              (List.foldl tokenInsertDoNothing db.token_owners
                (((x.take n).map scenarioToken).map tokenModel))
              (((x.drop n).map scenarioToken).map tokenModel) }, none)
        = _
    rw [eU, eT]

/-- The scenario hashes are pairwise distinct. -/
theorem scenario_hashes_nodup :
    (((List.range 2500).map scenarioAccount).map
      (fun a : EnrichedAccount => a.hash)).Nodup := by
  rw [List.map_map]
  refine List.Nodup.map ?_ (List.nodup_range 2500)
  intro i j hij
  simp only [Function.comp_apply, scenarioAccount, List.cons.injEq] at hij
  obtain ⟨h1, h2, -⟩ := hij
  omega

set_option maxRecDepth 10000 in
/-- C5: (i) the orchestrator runs the three phases in the fixed order —
spends from the initial state, then appends from the spends' state, then
path nodes from the appends' state, each phase over the pruned batch's
chunks; (ii) every chunk holds at most `MAX_SQL_INSERTS` rows; (iii) a
batch of 2,500 produced token accounts is split into 3 chunks, succeeds,
and leaves 2,500 account rows and 2,500 token rows. -/
theorem persist_state_update_chunked :
    (∀ (db db1 db2 db3 : DB) (su : StateUpdate),
      seqRun spend_input_accounts db
          (chunksOf MAX_SQL_INSERTS (prune_redundant_updates su).in_accounts)
        = (db1, none) →
      seqRun append_output_accounts db1
          (chunksOf MAX_SQL_INSERTS (prune_redundant_updates su).out_accounts)
        = (db2, none) →
      seqRun persist_path_nodes db2
          (chunksOf MAX_SQL_INSERTS (prune_redundant_updates su).path_nodes)
        = (db3, none) →
      persist_state_update db su = (db3, none)) ∧
    (∀ (l : List EnrichedAccount) (c : List EnrichedAccount),
      c ∈ chunksOf MAX_SQL_INSERTS l → c.length ≤ MAX_SQL_INSERTS) ∧
    (∀ (l : List EnrichedPathNode) (c : List EnrichedPathNode),
      c ∈ chunksOf MAX_SQL_INSERTS l → c.length ≤ MAX_SQL_INSERTS) ∧
    (chunksOf MAX_SQL_INSERTS scenarioBatch.out_accounts).length = 3 ∧
    (persist_state_update emptyDB scenarioBatch).2 = none ∧
    (persist_state_update emptyDB scenarioBatch).1.utxos.length = 2500 ∧
    (persist_state_update emptyDB scenarioBatch).1.token_owners.length = 2500 := by
  have horder : ∀ (db db1 db2 db3 : DB) (su : StateUpdate),
      seqRun spend_input_accounts db
          (chunksOf MAX_SQL_INSERTS (prune_redundant_updates su).in_accounts)
        = (db1, none) →
      seqRun append_output_accounts db1
          (chunksOf MAX_SQL_INSERTS (prune_redundant_updates su).out_accounts)
        = (db2, none) →
      seqRun persist_path_nodes db2
          (chunksOf MAX_SQL_INSERTS (prune_redundant_updates su).path_nodes)
        = (db3, none) →
      persist_state_update db su = (db3, none) := by
    intro db db1 db2 db3 su h1 h2 h3
    unfold persist_state_update
    simp only [h1, h2, h3]
  have hall : ∀ a ∈ (List.range 2500).map scenarioAccount,
      a.account = accGood := by
    intro a ha
    obtain ⟨i, -, rfl⟩ := List.mem_map.mp ha
    rfl
  have hprune : prune_redundant_updates scenarioBatch = scenarioBatch := by
    show { scenarioBatch with
           path_nodes := prunePathNodes scenarioBatch.path_nodes }
        = scenarioBatch
    rfl
  have h1 : seqRun spend_input_accounts emptyDB
      (chunksOf MAX_SQL_INSERTS (prune_redundant_updates scenarioBatch).in_accounts)
      = (emptyDB, none) := by
    rw [hprune]
    show seqRun spend_input_accounts emptyDB (chunksOf MAX_SQL_INSERTS []) = _
    rw [chunksOf_nil]
    rfl
  have hMne : MAX_SQL_INSERTS ≠ 0 := by decide
  have h2 := seqRun_append_chunks MAX_SQL_INSERTS hMne
    ((List.range 2500).map scenarioAccount) emptyDB hall
  have hfreshU : ∀ m ∈ (((List.range 2500).map scenarioAccount).map outUtxoModel),
      memKey (fun r : UtxoRow => r.hash) ([] : List UtxoRow) m.hash = false :=
    fun m _ => rfl
  have hndU : ((((List.range 2500).map scenarioAccount).map outUtxoModel).map
      (fun r : UtxoRow => r.hash)).Nodup := by
    rw [List.map_map]
    have : ((fun r : UtxoRow => r.hash) ∘ outUtxoModel)
        = (fun a : EnrichedAccount => a.hash) := rfl
    rw [this]
    exact scenario_hashes_nodup
  have hU : List.foldl utxoInsertDoNothing ([] : List UtxoRow)
      (((List.range 2500).map scenarioAccount).map outUtxoModel)
      = ((List.range 2500).map scenarioAccount).map outUtxoModel := by
    rw [utxoInsertDoNothing_eq]
    exact (foldl_insertDN_fresh (fun r : UtxoRow => r.hash) _ [] hndU hfreshU).trans
      (by simp)
  have hfreshT : ∀ m ∈ ((((List.range 2500).map scenarioAccount).map
        scenarioToken).map tokenModel),
      memKey (fun r : TokenOwnerRow => r.hash) ([] : List TokenOwnerRow)
        m.hash = false :=
    fun m _ => rfl
  have hndT : (((((List.range 2500).map scenarioAccount).map
      scenarioToken).map tokenModel).map
      (fun r : TokenOwnerRow => r.hash)).Nodup := by
    rw [List.map_map, List.map_map]
    have : (((fun r : TokenOwnerRow => r.hash) ∘ tokenModel) ∘ scenarioToken)
        = (fun a : EnrichedAccount => a.hash) := rfl
    rw [this]
    exact scenario_hashes_nodup
  have hT : List.foldl tokenInsertDoNothing ([] : List TokenOwnerRow)
      ((((List.range 2500).map scenarioAccount).map scenarioToken).map tokenModel)
      = (((List.range 2500).map scenarioAccount).map scenarioToken).map
          tokenModel := by
    rw [tokenInsertDoNothing_eq]
    exact (foldl_insertDN_fresh (fun r : TokenOwnerRow => r.hash) _ [] hndT
      hfreshT).trans (by simp)
  have h2' : seqRun append_output_accounts emptyDB
      (chunksOf MAX_SQL_INSERTS (prune_redundant_updates scenarioBatch).out_accounts)
      = ({ emptyDB with
            utxos := ((List.range 2500).map scenarioAccount).map outUtxoModel
            token_owners := (((List.range 2500).map scenarioAccount).map
              scenarioToken).map tokenModel }, none) := by
    rw [hprune]
    show seqRun append_output_accounts emptyDB
        (chunksOf MAX_SQL_INSERTS ((List.range 2500).map scenarioAccount)) = _
    rw [h2]
    show ({ emptyDB with
            utxos := List.foldl utxoInsertDoNothing ([] : List UtxoRow)
              (((List.range 2500).map scenarioAccount).map outUtxoModel)
            token_owners := List.foldl tokenInsertDoNothing
              ([] : List TokenOwnerRow)
              ((((List.range 2500).map scenarioAccount).map scenarioToken).map
                tokenModel) }, none) = _
    rw [hU, hT]
  have h3 : seqRun persist_path_nodes
      ({ emptyDB with
          utxos := ((List.range 2500).map scenarioAccount).map outUtxoModel
          token_owners := (((List.range 2500).map scenarioAccount).map
            scenarioToken).map tokenModel })
      (chunksOf MAX_SQL_INSERTS (prune_redundant_updates scenarioBatch).path_nodes)
      = ({ emptyDB with
            utxos := ((List.range 2500).map scenarioAccount).map outUtxoModel
            token_owners := (((List.range 2500).map scenarioAccount).map
              scenarioToken).map tokenModel }, none) := by
    rw [hprune]
    show seqRun persist_path_nodes _ (chunksOf MAX_SQL_INSERTS []) = _
    rw [chunksOf_nil]
    rfl
  have hfinal := horder emptyDB emptyDB _ _ scenarioBatch h1 h2' h3
  refine ⟨horder, fun l => chunksOf_length_le MAX_SQL_INSERTS l,
    fun l => chunksOf_length_le MAX_SQL_INSERTS l, ?_, ?_, ?_, ?_⟩
  · show (chunksOf MAX_SQL_INSERTS ((List.range 2500).map scenarioAccount)).length = 3
    rw [chunksOf_count MAX_SQL_INSERTS hMne]
    simp [MAX_SQL_INSERTS]
  · rw [hfinal]
  · rw [hfinal]
    simp
  · rw [hfinal]
    simp

/-- A one-account list used to exercise the chunk-size bound. -/
def tinyChunk : List EnrichedAccount :=
  [{ account := accNoData, tree := [1], seq := none, hash := [1], slot := 0 }]

/-- Witness for C5: the order equation applied to the empty batch, and a
singleton-list chunk exercising the chunk-size bound. -/
theorem persist_state_update_chunked_witness :
    let su0 : StateUpdate :=
      { in_accounts := [], out_accounts := [], path_nodes := [] }
    persist_state_update emptyDB su0 = (emptyDB, none) ∧
    tinyChunk.length ≤ MAX_SQL_INSERTS := by
  intro su0
  have hnil : ∀ (f : DB → List EnrichedAccount → DB × Option IngesterError),
      seqRun f emptyDB (chunksOf MAX_SQL_INSERTS ([] : List EnrichedAccount))
        = (emptyDB, none) := by
    intro f
    rw [chunksOf_nil]
    rfl
  have hnilP : seqRun persist_path_nodes emptyDB
      (chunksOf MAX_SQL_INSERTS ([] : List EnrichedPathNode))
      = (emptyDB, none) := by
    rw [chunksOf_nil]
    rfl
  have hmem : tinyChunk ∈ chunksOf MAX_SQL_INSERTS tinyChunk := by
    rw [chunksOf_cons MAX_SQL_INSERTS tinyChunk (by decide) (by simp [tinyChunk])]
    simp [tinyChunk, chunksOf_nil, MAX_SQL_INSERTS]
  exact ⟨persist_state_update_chunked.1 emptyDB emptyDB emptyDB emptyDB su0
      (hnil _) (hnil _) hnilP,
    persist_state_update_chunked.2.1 tinyChunk tinyChunk hmem⟩

end Photon
